import Mathlib

/-!
Verification of the `mcts` crate (a parallel Monte Carlo tree search library)
against its natural-language specification.

The development shallowly embeds the parts of the source that the claims
touch:

* `src/lib.rs`, `MCTSManager::playout_n_parallel` — a step relation over an
  explicit worker/counter state (`ParState`, `ParStep`).
* `src/lib.rs`, `MCTSManager::best_moves` — the sort key and a fuel-indexed
  stable merge sort in which a comparison may fail (`mergeOptF`,
  `mergeSortOptF`); a failing comparison models a Rust panic (integer
  division by zero in the sort key).
* `src/lib.rs`, `MCTSManager::move_best_random_n` — the candidate-slice
  computation and a uniform choice from it (`move_best_random_n`).
* `src/lib.rs`, `MCTSManager::reset` and the `MCTS` trait's default methods.
* `src/transposition_table.rs` — the unit table, and `ApproxTable::insert`
  on top of the lockfree map.

Machine integers are modelled as `Nat`/`Int` with explicit wrapping
wherever the source wraps: the casts (`n as isize`, `visits() as i64`) via
`i64ofU64`, and the `i64` negation inside the sort key via `wrapI64`
(two's-complement wrap-around, the release-mode behaviour; a debug build
instead panics at the single input `sum_rewards = i64::MIN`, and the
success theorem for `best_moves` keeps its hypotheses strictly inside the
range where the two modes agree and the negation is exact).  The `i64`
division of the sort key panics on a zero divisor and on `i64::MIN / -1`;
both panics are modelled (`sort_key = none`).  The contents of the
per-edge atomic counters (`sum_rewards : i64`, `visits : u64`) are an
`Int` and a `Nat`, with the `i64`/`u64` ranges appearing as hypotheses
where a claim needs them.
-/

/-- The value of a `u64` (here a `Nat` taken mod `2 ^ 64`) after Rust's
`as i64`/`as isize` cast (two's-complement reinterpretation; on the 64-bit
targets the crate supports, `src/atomics.rs` makes `isize` and `i64`
coincide). -/
def i64ofU64 (v : Nat) : Int :=
  if v % 2 ^ 64 < 2 ^ 63 then ((v % 2 ^ 64 : Nat) : Int)
  else ((v % 2 ^ 64 : Nat) : Int) - 2 ^ 64

/-- One edge of a search node (`MoveInfo` in `src/search_tree.rs` as used by
`src/lib.rs`): the move itself (opaque, modelled as a `Nat` identifier), and
the contents of its two statistics atomics, `sum_rewards : i64` and
`visits : u64`. -/
structure MoveInfo where
  mov : Nat
  sum_rewards : Int
  visits : Nat
deriving DecidableEq, Repr

/-- Two's-complement wrap-around of an `Int` into the `i64` range, the
result of an `i64` arithmetic operation that overflows in a release build. -/
def wrapI64 (x : Int) : Int := (x + 2 ^ 63) % 2 ^ 64 - 2 ^ 63

/-- The divisor of the sort key in `MCTSManager::best_moves`:
`info.visits() as i64`. -/
def key_divisor (m : MoveInfo) : Int := i64ofU64 m.visits

/-- The sort key of `MCTSManager::best_moves` as a total function:
`-info.sum_rewards() / info.visits() as i64`, with the `i64` negation
wrapped into range (`wrapI64`; the wrap is only reached at
`sum_rewards = i64::MIN`, where a release build wraps and a debug build
panics) and Rust's `i64` division (truncation toward zero, which is
`Int.tdiv`).  Meaningful only when the division does not panic;
`best_moves` panics otherwise (see `sort_key`). -/
def keyD (m : MoveInfo) : Int := Int.tdiv (wrapI64 (-m.sum_rewards)) (key_divisor m)

/-- The sort key computation including the division's panics: Rust `i64`
division panics on a zero divisor and on the overflowing `i64::MIN / -1`;
both are modelled as `none`. -/
def sort_key (m : MoveInfo) : Option Int :=
  if key_divisor m = 0 then none
  else if wrapI64 (-m.sum_rewards) = -(2 ^ 63) ∧ key_divisor m = -1 then none
  else some (keyD m)

/-- One comparator call made by `sort_by_key`: the key of the left element
is computed, then the key of the right element, then they are compared.
`none` models a panic inside the comparator. -/
def cmpOpt (a b : MoveInfo) : Option Bool :=
  (sort_key a).bind fun ka => (sort_key b).map fun kb => decide (ka ≤ kb)

/-- Merge two lists with a comparator that may panic (`none`).  The first
argument is fuel making the recursion structural; every use supplies fuel
strictly greater than the sum of the lengths, so the `0` case is never
reached.  Taking the left element on ties matches Rust's stable sort. -/
def mergeOptF : Nat → List MoveInfo → List MoveInfo → Option (List MoveInfo)
  | 0, _, _ => none
  | _ + 1, [], ys => some ys
  | _ + 1, x :: xs, [] => some (x :: xs)
  | f + 1, x :: xs, y :: ys =>
    (cmpOpt x y).bind fun b =>
      if b then (mergeOptF f xs (y :: ys)).map (x :: ·)
      else (mergeOptF f (x :: xs) ys).map (y :: ·)

/-- Fuel-indexed merge sort with a comparator that may panic.  A list of
length at most one is returned untouched with no comparator call, exactly as
Rust's slice sort returns early for `len < 2`; this is what decides claim
C9's one-edge case.  Every use supplies fuel strictly greater than the list
length. -/
def mergeSortOptF : Nat → List MoveInfo → Option (List MoveInfo)
  | 0, _ => none
  | _ + 1, [] => some []
  | _ + 1, [a] => some [a]
  | f + 1, x :: y :: rest =>
    (mergeSortOptF f ((x :: y :: rest).take ((x :: y :: rest).length / 2))).bind fun ls =>
      (mergeSortOptF f ((x :: y :: rest).drop ((x :: y :: rest).length / 2))).bind fun rs =>
        mergeOptF (ls.length + rs.length + 1) ls rs

/-- `MCTSManager::best_moves` (src/lib.rs:344-350), applied to the current
node's edge list: sort the edges ascending by
`-info.sum_rewards() / info.visits() as i64` with a stable sort.  `none`
models a panic (division by zero inside the comparator). -/
def best_moves (moves : List MoveInfo) : Option (List MoveInfo) :=
  mergeSortOptF (moves.length + 1) moves

/-- Uniform random choice from a slice, as `rand`'s `SliceRandom::choose`:
a uniformly random index below the length.  The random draw is modelled by
the seed `r`; the selected index is `r % length` (each index is selected by
exactly one seed below the length).  `none` iff the slice is empty, in which
case the source's `.unwrap()` panics. -/
def chooseUniform (l : List MoveInfo) (r : Nat) : Option MoveInfo :=
  l[r % l.length]?

/-- `MCTSManager::move_best_random_n` (src/lib.rs:392-442), restricted to
the selection it performs on the `best_moves` list `bm`: when
`bm.len() > 10` the candidate slice is `&bm[0..n]` (a panic — `none` — when
`n` is out of range), otherwise it is all of `bm`; then a uniformly random
element of the candidate slice is chosen (`none` — an `unwrap` panic — when
the slice is empty). -/
def move_best_random_n (bm : List MoveInfo) (n : Nat) (r : Nat) : Option MoveInfo :=
  (if 10 < bm.length then
    if n ≤ bm.length then some (bm.take n) else none
  else some bm).bind (fun infos => chooseUniform infos r)

/-- The state shared by the workers of `playout_n_parallel` (src/lib.rs:448-473):
the shared atomic counter, and per worker whether it has exited its loop and
how many playouts it has started and completed.  A playout is modelled only
by its count: it touches no state that the driver claim mentions. -/
structure ParState (W : Nat) where
  counter : Int
  stopped : Fin W → Bool
  playouts : Fin W → Nat

/-- Total number of playouts started and completed across all workers. -/
def totalPlayouts {W : Nat} (s : ParState W) : Nat := ∑ w, s.playouts w

/-- The state at the start of `playout_n_parallel(n, num_threads)`: the
shared counter is initialized with `AtomicIsize::new(n as isize)` — note the
cast — and every worker is running with no playouts done. -/
def parInit (n W : Nat) : ParState W :=
  { counter := i64ofU64 n, stopped := fun _ => false, playouts := fun _ => 0 }

/-- One atomic step of a worker's loop in `playout_n_parallel`:
`let count = counter.fetch_sub(1, Ordering::SeqCst)` returns the
pre-decrement value and decrements; if `count <= 0` the worker breaks out of
its loop, otherwise it runs one playout and loops.  `fetch_sub` is the only
operation on the counter, so any thread interleaving is a sequence of these
steps. -/
inductive ParStep (W : Nat) : ParState W → ParState W → Prop where
  | work (s : ParState W) (w : Fin W) (hw : s.stopped w = false) (hc : 0 < s.counter) :
      ParStep W s
        { counter := s.counter - 1
          stopped := s.stopped
          playouts := Function.update s.playouts w (s.playouts w + 1) }
  | halt (s : ParState W) (w : Fin W) (hw : s.stopped w = false) (hc : s.counter ≤ 0) :
      ParStep W s
        { counter := s.counter - 1
          stopped := Function.update s.stopped w true
          playouts := s.playouts }

/-- Invariant carried by every reachable state of `playout_n_parallel(n, _)`
(for `n` whose `isize` cast is value-preserving): the completed playouts and
the remaining counter account for `n`, and a worker only stops once the
counter has gone non-positive (hence negative after its decrement). -/
def ParInv (n : Nat) {W : Nat} (s : ParState W) : Prop :=
  (((totalPlayouts s : Int) + s.counter = n ∧ 0 ≤ s.counter) ∨
    ((totalPlayouts s : Int) = n ∧ s.counter < 0)) ∧
  ∀ w, s.stopped w = true → s.counter < 0

/-- The `lockfree::map::Map::insert` used by `ApproxTable::insert`
(src/transposition_table.rs:74-85), on an association-list model of the map
(keys and the node pointers stored as values are opaque, modelled as `Nat`).
Modelled from the lockfree crate's documented semantics: the entry is
stored, replacing any previous entry for the key, and the previous value (if
any) is returned. -/
def lockfree_map_insert : List (Nat × Nat) → Nat → Nat → Option Nat × List (Nat × Nat)
  | [], k, v => (none, [(k, v)])
  | (k', v') :: rest, k, v =>
    if k' = k then (some v', (k, v) :: rest)
    else
      let p := lockfree_map_insert rest k v
      (p.1, (k', v') :: p.2)

/-- `ApproxTable::insert` (src/transposition_table.rs:74-85): delegate to
the lockfree map's insert and pass its return value (the replaced node, if
any) straight through. -/
def approx_table_insert (t : List (Nat × Nat)) (k v : Nat) :
    Option Nat × List (Nat × Nat) :=
  lockfree_map_insert t k v

/-- The degenerate transposition table: `TranspositionTable for ()`
(src/transposition_table.rs:39-51), `insert`.  Returns `None` and the table
(which has no state) unchanged. -/
def unit_table_insert {σ ν : Type} (t : Unit) (_k : σ) (_v : ν) : Option ν × Unit :=
  (none, t)

/-- The degenerate transposition table, `lookup`: always `None`. -/
def unit_table_lookup {σ ν : Type} (_t : Unit) (_k : σ) : Option ν :=
  none

/-- `CycleBehaviour` (src/lib.rs:615-620).  The evaluation carried by
`UseThisEvalWhenCycleDetected` is opaque, modelled as an `Int`. -/
inductive CycleBehaviour where
  | Ignore
  | UseCurrentEvalWhenCycleDetected
  | PanicWhenCycleDetected
  | UseThisEvalWhenCycleDetected (e : Int)
deriving DecidableEq

/-- The transposition-table types this crate provides for a spec. -/
inductive TableKind where
  | unitTable
  | approxTable
deriving DecidableEq

/-- `std::mem::size_of` for the crate's table types: `()` is zero-sized;
`ApproxTable` is a `LockFreeHashTable` holding a `lockfree::map::Map` (which
contains pointers) plus a zero-sized `PhantomData`, so its size is some
nonzero number of bytes — only zero versus nonzero reaches
`cycle_behaviour`, the exact value is irrelevant. -/
def table_size_of : TableKind → Nat
  | .unitTable => 0
  | .approxTable => 8

/-- The `MCTS` trait's default `cycle_behaviour` (src/lib.rs:154-160):
`Ignore` when the transposition table type is zero-sized, otherwise
`PanicWhenCycleDetected`. -/
def cycle_behaviour (t : TableKind) : CycleBehaviour :=
  if table_size_of t = 0 then .Ignore else .PanicWhenCycleDetected

/-- Default `MCTS::virtual_loss` (src/lib.rs:135-137). -/
def virtual_loss : Int := 0

/-- Default `MCTS::visits_before_expansion` (src/lib.rs:139-141). -/
def visits_before_expansion : Nat := 1

/-- `std::usize::MAX` on the 64-bit targets the crate supports. -/
def USIZE_MAX : Nat := 2 ^ 64 - 1

/-- Default `MCTS::node_limit` (src/lib.rs:143-145): `std::usize::MAX`. -/
def node_limit : Nat := USIZE_MAX

/-- Default `MCTS::max_playout_length` (src/lib.rs:147-150). -/
def max_playout_length : Nat := 1000000

/-- `MCTSManager` (src/lib.rs:223-229).  The state, the search tree (which
owns the transposition table) and the thread-local data are opaque to claim
C8, so they are type parameters; `single_threaded_tld` is an `Option` as in
the source. -/
structure MCTSManagerModel (σ τ υ : Type) where
  state : σ
  search_tree : τ
  single_threaded_tld : Option υ
  print_on_playout_error : Bool

/-- `MCTSManager::reset` (src/lib.rs:527-532): functional-update syntax
replacing only `state`. -/
def reset {σ τ υ : Type} (m : MCTSManagerModel σ τ υ) (init_state : σ) :
    MCTSManagerModel σ τ υ :=
  { m with state := init_state }

/-- A concrete eleven-edge node used to exercise the `len > 10` branch of
`move_best_random_n`. -/
def elevenMoves : List MoveInfo :=
  [⟨0, 3, 1⟩, ⟨1, 5, 2⟩, ⟨2, -2, 1⟩, ⟨3, 0, 1⟩, ⟨4, 7, 3⟩, ⟨5, 1, 1⟩,
    ⟨6, -4, 2⟩, ⟨7, 2, 1⟩, ⟨8, 9, 4⟩, ⟨9, 6, 2⟩, ⟨10, 8, 3⟩]

/-- A concrete two-edge node with an unvisited edge. -/
def twoMoves : List MoveInfo := [⟨0, 1, 0⟩, ⟨1, 2, 3⟩]

/-- The single worker of a one-thread run. -/
def cw0 : Fin 1 := ⟨0, Nat.one_pos⟩

/-- State of `playout_n_parallel(1, 1)` after the worker's first
`fetch_sub` (which read `1 > 0`) and its playout. -/
def cSt1 : ParState 1 :=
  { counter := (parInit 1 1).counter - 1
    stopped := (parInit 1 1).stopped
    playouts := Function.update (parInit 1 1).playouts cw0 ((parInit 1 1).playouts cw0 + 1) }

/-- State of `playout_n_parallel(1, 1)` after the worker's second
`fetch_sub` (which read `0 ≤ 0`) made it break: terminal. -/
def cSt2 : ParState 1 :=
  { counter := cSt1.counter - 1
    stopped := Function.update cSt1.stopped cw0 true
    playouts := cSt1.playouts }

/-- Terminal state of `playout_n_parallel(2 ^ 63, 1)`: the counter was
initialized to `(2 ^ 63) as isize = -2 ^ 63`, so the single worker's first
`fetch_sub` read a non-positive value and it stopped with zero playouts. -/
def cexSt : ParState 1 :=
  { counter := (parInit (2 ^ 63) 1).counter - 1
    stopped := Function.update (parInit (2 ^ 63) 1).stopped cw0 true
    playouts := (parInit (2 ^ 63) 1).playouts }

/-- C7: the `MCTS` trait's default tuning knobs are `virtual_loss() = 0`,
`visits_before_expansion() = 1`, `node_limit() = usize::MAX = 2 ^ 64 - 1`
and `max_playout_length() = 1_000_000`. -/
theorem default_knobs :
    virtual_loss = 0 ∧ visits_before_expansion = 1 ∧
    node_limit = 2 ^ 64 - 1 ∧ max_playout_length = 1000000 :=
  ⟨rfl, rfl, rfl, rfl⟩

/-- C5: the default `cycle_behaviour` is `Ignore` exactly for the degenerate
unit table and `PanicWhenCycleDetected` for the crate's only other table
type, `ApproxTable`. -/
theorem cycle_behaviour_default :
    cycle_behaviour .unitTable = .Ignore ∧
    cycle_behaviour .approxTable = .PanicWhenCycleDetected ∧
    ∀ t, (cycle_behaviour t = .Ignore ↔ t = .unitTable) := by
  refine ⟨rfl, rfl, ?_⟩
  intro t
  cases t <;> simp [cycle_behaviour, table_size_of]

/-- C6: the unit transposition table returns `None` from both `insert` and
`lookup` and leaves its (empty) state unchanged. -/
theorem unit_table_noop {σ ν : Type} (t : Unit) (k : σ) (v : ν) :
    unit_table_insert t k v = (none, t) ∧ unit_table_lookup t k = (none : Option ν) :=
  ⟨rfl, rfl⟩

/-- C8: `reset` replaces the root state and leaves every other field of the
manager — the search tree (hence the transposition table it owns), the
single-threaded thread-local data and the error-printing flag — unchanged. -/
theorem reset_frame {σ τ υ : Type} (m : MCTSManagerModel σ τ υ) (s : σ) :
    (reset m s).state = s ∧
    (reset m s).search_tree = m.search_tree ∧
    (reset m s).single_threaded_tld = m.single_threaded_tld ∧
    (reset m s).print_on_playout_error = m.print_on_playout_error :=
  ⟨rfl, rfl, rfl, rfl⟩

/-- C4 fails on the code: with the key `1` already bound to `10`,
`ApproxTable::insert(1, 20)` actually inserts — it replaces the stored value,
changing the table — yet returns `Some(10)`; the trait contract (and the
claim) require `None` whenever a value is actually inserted. -/
theorem approx_table_insert_bug :
    approx_table_insert [(1, 10)] 1 20 = (some 10, [(1, 20)]) ∧
    ([(1, 20)] : List (Nat × Nat)) ≠ [(1, 10)] :=
  ⟨rfl, by decide⟩

/-- C3: the selection `move_best_random_n` performs on the current node's
`best_moves` list `bm`: when `bm.len() ≤ 10` the parameter `n` is ignored
and the move is drawn uniformly from all of `bm` (index `r % bm.len()` for
the uniform draw `r`); when `bm.len() > 10` (and `n` is in range, claim C10
covers the rest) it is drawn uniformly from the first `n` entries. -/
theorem move_best_random_n_spec (bm : List MoveInfo) (n r : Nat) :
    (bm.length ≤ 10 → move_best_random_n bm n r = bm[r % bm.length]?) ∧
    (10 < bm.length → n ≤ bm.length →
      move_best_random_n bm n r = (bm.take n)[r % n]?) := by
  constructor
  · intro h
    simp [move_best_random_n, chooseUniform, Nat.not_lt.mpr h]
  · intro h hn
    simp [move_best_random_n, chooseUniform, h, hn, List.length_take, Nat.min_eq_left hn]

/-- Witness for C3 at concrete inputs: an eleven-edge list with `n = 4`,
draw `7`, and a three-edge list (where `n = 9` is ignored), draw `5`. -/
theorem move_best_random_n_spec_witness :
    (10 < elevenMoves.length ∧ 4 ≤ elevenMoves.length ∧
      move_best_random_n elevenMoves 4 7 = (elevenMoves.take 4)[7 % 4]?) ∧
    ((elevenMoves.take 3).length ≤ 10 ∧
      move_best_random_n (elevenMoves.take 3) 9 5 =
        (elevenMoves.take 3)[5 % (elevenMoves.take 3).length]?) :=
  ⟨⟨by decide, by decide, (move_best_random_n_spec elevenMoves 4 7).2 (by decide) (by decide)⟩,
    ⟨by decide, (move_best_random_n_spec (elevenMoves.take 3) 9 5).1 (by decide)⟩⟩

/-- C10: on a node whose `best_moves` list is longer than ten entries,
`move_best_random_n(n)` panics for `n = 0` (uniform choice from the empty
slice `&bm[0..0]` is `None` and is unwrapped) and for `n > bm.len()` (the
slice `&bm[0..n]` is out of range). -/
theorem move_best_random_n_panics (bm : List MoveInfo) (n r : Nat)
    (hlen : 10 < bm.length) (h : n = 0 ∨ bm.length < n) :
    move_best_random_n bm n r = none := by
  rcases h with rfl | h
  · simp [move_best_random_n, chooseUniform, hlen]
  · simp [move_best_random_n, hlen, Nat.not_le.mpr h]

/-- Witness for C10 at concrete inputs: the eleven-edge list with `n = 0`
and with `n = 12`. -/
theorem move_best_random_n_panics_witness :
    (10 < elevenMoves.length ∧ move_best_random_n elevenMoves 0 3 = none) ∧
    (elevenMoves.length < 12 ∧ move_best_random_n elevenMoves 12 3 = none) :=
  ⟨⟨by decide, move_best_random_n_panics elevenMoves 0 3 (by decide) (Or.inl rfl)⟩,
    ⟨by decide, move_best_random_n_panics elevenMoves 12 3 (by decide) (Or.inr (by decide))⟩⟩

/-- A zero divisor (an unvisited edge) makes the key computation panic. -/
theorem sort_key_none_of_divisor (m : MoveInfo) (h : key_divisor m = 0) :
    sort_key m = none := by
  unfold sort_key
  rw [if_pos h]

/-- A comparator call whose left element's key computation panics
panics. -/
theorem cmpOpt_none_left (a b : MoveInfo) (h : sort_key a = none) : cmpOpt a b = none := by
  simp [cmpOpt, h]

/-- A comparator call whose right element's key computation panics
panics. -/
theorem cmpOpt_none_right (a b : MoveInfo) (h : sort_key b = none) : cmpOpt a b = none := by
  cases hka : sort_key a <;> simp [cmpOpt, h, hka]

/-- A successful merge returns a permutation of its two inputs. -/
theorem mergeOptF_perm (f : Nat) :
    ∀ (xs ys zs : List MoveInfo), mergeOptF f xs ys = some zs → zs.Perm (xs ++ ys) := by
  induction f with
  | zero => intro xs ys zs h; simp [mergeOptF] at h
  | succ f ih =>
    intro xs ys zs h
    cases xs with
    | nil =>
      simp [mergeOptF] at h
      subst h
      simp
    | cons x xs' =>
      cases ys with
      | nil =>
        simp [mergeOptF] at h
        subst h
        simp
      | cons y ys' =>
        simp only [mergeOptF] at h
        cases hc : cmpOpt x y with
        | none => rw [hc] at h; simp at h
        | some b =>
          rw [hc] at h
          simp only [Option.some_bind] at h
          cases b with
          | true =>
            simp only [if_pos] at h
            cases hm : mergeOptF f xs' (y :: ys') with
            | none => rw [hm] at h; simp at h
            | some zs' =>
              rw [hm] at h
              simp at h
              subst h
              simpa using (ih xs' (y :: ys') zs' hm).cons x
          | false =>
            simp only [Bool.false_eq_true, if_neg, if_false] at h
            cases hm : mergeOptF f (x :: xs') ys' with
            | none => rw [hm] at h; simp at h
            | some zs' =>
              rw [hm] at h
              simp at h
              subst h
              exact ((ih (x :: xs') ys' zs' hm).cons y).trans List.perm_middle.symm

/-- A successful sort returns a permutation of its input. -/
theorem mergeSortOptF_perm (f : Nat) :
    ∀ (xs ys : List MoveInfo), mergeSortOptF f xs = some ys → ys.Perm xs := by
  induction f with
  | zero => intro xs ys h; simp [mergeSortOptF] at h
  | succ f ih =>
    intro xs ys h
    obtain _ | ⟨x, _ | ⟨y, rest⟩⟩ := xs
    · simp [mergeSortOptF] at h
      subst h
      exact List.Perm.refl _
    · simp [mergeSortOptF] at h
      subst h
      exact List.Perm.refl _
    · simp only [mergeSortOptF] at h
      cases h1 : mergeSortOptF f ((x :: y :: rest).take ((x :: y :: rest).length / 2)) with
      | none => rw [h1] at h; simp at h
      | some ls =>
        rw [h1] at h
        simp only [Option.some_bind] at h
        cases h2 : mergeSortOptF f ((x :: y :: rest).drop ((x :: y :: rest).length / 2)) with
        | none => rw [h2] at h; simp at h
        | some rs =>
          rw [h2] at h
          simp only [Option.some_bind] at h
          have hperm := mergeOptF_perm _ ls rs ys h
          have pl := ih _ ls h1
          have pr := ih _ rs h2
          refine hperm.trans ((pl.append pr).trans ?_)
          rw [List.take_append_drop]

/-- A merge whose left head has a zero divisor panics on its first
comparison (both sides nonempty). -/
theorem mergeOptF_bad_left (f : Nat) (m z : MoveInfo) (ms zs : List MoveInfo)
    (h : sort_key m = none) : mergeOptF f (m :: ms) (z :: zs) = none := by
  cases f with
  | zero => rfl
  | succ f => simp [mergeOptF, cmpOpt_none_left m z h]

/-- A merge whose right head has a zero divisor panics on its first
comparison (both sides nonempty). -/
theorem mergeOptF_bad_right (f : Nat) (m z : MoveInfo) (ms zs : List MoveInfo)
    (h : sort_key m = none) : mergeOptF f (z :: zs) (m :: ms) = none := by
  cases f with
  | zero => rfl
  | succ f => simp [mergeOptF, cmpOpt_none_right z m h]

/-- A list of length at least two containing an element whose key
computation panics cannot be sorted: some comparison computes that
element's key. -/
theorem mergeSortOptF_bad (f : Nat) :
    ∀ xs : List MoveInfo, 2 ≤ xs.length → (∃ m ∈ xs, sort_key m = none) →
      mergeSortOptF f xs = none := by
  induction f with
  | zero => intro xs _ _; simp [mergeSortOptF]
  | succ f ih =>
    intro xs h2 hbad
    obtain _ | ⟨x, _ | ⟨y, rest⟩⟩ := xs
    · simp at h2
    · simp at h2
    · obtain ⟨m, hm, hdm⟩ := hbad
      set l := (x :: y :: rest).take ((x :: y :: rest).length / 2) with hl
      set r := (x :: y :: rest).drop ((x :: y :: rest).length / 2) with hr
      have hsplit : l ++ r = x :: y :: rest := List.take_append_drop _ _
      have hm' : m ∈ l ++ r := by rw [hsplit]; exact hm
      have hlen : (x :: y :: rest).length = rest.length + 2 := by simp
      have hllen : l.length = (rest.length + 2) / 2 := by
        rw [hl, List.length_take, hlen]
        omega
      have hrlen : r.length = rest.length + 2 - (rest.length + 2) / 2 := by
        rw [hr, List.length_drop, hlen]
      simp only [mergeSortOptF]
      rw [← hl, ← hr]
      rcases List.mem_append.mp hm' with hml | hmr
      · by_cases hbig : 2 ≤ l.length
        · rw [ih l hbig ⟨m, hml, hdm⟩]
          simp
        · have hl1 : l.length = 1 := by omega
          obtain ⟨a, ha⟩ := List.length_eq_one.mp hl1
          have hma : m = a := by
            rw [ha] at hml
            simpa using hml
          subst hma
          cases h1 : mergeSortOptF f l with
          | none => simp
          | some ls =>
            have hls : ls = [m] := by
              have hp := mergeSortOptF_perm f l ls h1
              rw [ha] at hp
              exact List.perm_singleton.mp hp
            subst hls
            simp only [Option.some_bind]
            cases h2r : mergeSortOptF f r with
            | none => simp
            | some rs =>
              simp only [Option.some_bind]
              have hrne : rs ≠ [] := by
                intro hcon
                have hlen0 := (mergeSortOptF_perm f r rs h2r).length_eq
                rw [hcon] at hlen0
                simp at hlen0
                omega
              obtain ⟨z, zs, rfl⟩ := List.exists_cons_of_ne_nil hrne
              exact mergeOptF_bad_left _ m z _ _ hdm
      · by_cases hbig : 2 ≤ r.length
        · cases h1 : mergeSortOptF f l with
          | none => simp
          | some ls =>
            simp only [Option.some_bind]
            rw [ih r hbig ⟨m, hmr, hdm⟩]
            simp
        · have hr1 : r.length = 1 := by omega
          obtain ⟨a, ha⟩ := List.length_eq_one.mp hr1
          have hma : m = a := by
            rw [ha] at hmr
            simpa using hmr
          subst hma
          cases h1 : mergeSortOptF f l with
          | none => simp
          | some ls =>
            simp only [Option.some_bind]
            cases h2r : mergeSortOptF f r with
            | none => simp
            | some rs =>
              simp only [Option.some_bind]
              have hrs : rs = [m] := by
                have hp := mergeSortOptF_perm f r rs h2r
                rw [ha] at hp
                exact List.perm_singleton.mp hp
              subst hrs
              have hlne : ls ≠ [] := by
                intro hcon
                have hlen0 := (mergeSortOptF_perm f l ls h1).length_eq
                rw [hcon] at hlen0
                simp at hlen0
                omega
              obtain ⟨z, zs, rfl⟩ := List.exists_cons_of_ne_nil hlne
              exact mergeOptF_bad_right _ m z _ _ hdm

/-- C9 is false as stated: a node with exactly one edge whose `visits()` is
zero does not make `best_moves` panic — Rust's sort performs no comparison
(hence computes no key, hence divides by nothing) on a slice of length less
than two, and simply returns the one-element list. -/
theorem best_moves_single_unvisited :
    best_moves [⟨0, 5, 0⟩] = some [⟨0, 5, 0⟩] ∧ (⟨0, 5, 0⟩ : MoveInfo).visits = 0 :=
  ⟨rfl, rfl⟩

/-- C9 amended: `best_moves` panics with a division by zero whenever the
current node has at least **two** edges and at least one of them has
`visits() == 0`; with at most one edge no sort key is ever computed and the
call returns normally. -/
theorem best_moves_unvisited_panics (moves : List MoveInfo)
    (h2 : 2 ≤ moves.length) (hz : ∃ m ∈ moves, m.visits = 0) :
    best_moves moves = none := by
  obtain ⟨m, hm, hv⟩ := hz
  have hd0 : key_divisor m = 0 := by
    unfold key_divisor
    rw [hv]
    decide
  exact mergeSortOptF_bad _ moves h2 ⟨m, hm, sort_key_none_of_divisor m hd0⟩

/-- Witness for the amended C9 at a concrete two-edge node with an
unvisited edge. -/
theorem best_moves_unvisited_panics_witness :
    2 ≤ twoMoves.length ∧ (∃ m ∈ twoMoves, m.visits = 0) ∧ best_moves twoMoves = none :=
  ⟨by decide, by decide, best_moves_unvisited_panics twoMoves (by decide) (by decide)⟩

/-- Every step of a worker's loop preserves the accounting invariant. -/
theorem parStep_inv {n W : Nat} {s t : ParState W} (hst : ParStep W s t)
    (h : ParInv n s) : ParInv n t := by
  obtain ⟨hacc, hstop⟩ := h
  cases hst with
  | work w hw hc =>
    have hsum : (∑ w' : Fin W, Function.update s.playouts w (s.playouts w + 1) w')
        = (∑ w' : Fin W, s.playouts w') + 1 := by
      rw [Finset.sum_update_of_mem (Finset.mem_univ w)]
      have hrest := Finset.sum_erase_add Finset.univ s.playouts (Finset.mem_univ w)
      rw [Finset.erase_eq] at hrest
      omega
    simp only [ParInv, totalPlayouts] at hacc hstop ⊢
    constructor
    · rw [hsum]
      push_cast at hacc ⊢
      omega
    · intro w' hw'
      have := hstop w' hw'
      omega
  | halt w hw hc =>
    simp only [ParInv, totalPlayouts] at hacc hstop ⊢
    constructor
    · push_cast at hacc ⊢
      omega
    · intro w' _
      omega

/-- The invariant holds in every state reachable from a state satisfying
it. -/
theorem parReach_inv {n W : Nat} {s t : ParState W}
    (h : Relation.ReflTransGen (ParStep W) s t) (hs : ParInv n s) : ParInv n t := by
  induction h with
  | refl => exact hs
  | tail _ hstep ih => exact parStep_inv hstep ih

/-- The invariant holds initially when the `isize` cast of `n` preserves
its value. -/
theorem parInit_inv (n W : Nat) (hbound : n < 2 ^ 63) : ParInv n (parInit n W) := by
  have h64 : n < 2 ^ 64 := by
    have h : (2 : Nat) ^ 63 < 2 ^ 64 := by norm_num
    omega
  have hcast : i64ofU64 n = (n : Int) := by
    unfold i64ofU64
    rw [Nat.mod_eq_of_lt h64, if_pos hbound]
  simp only [ParInv, parInit, totalPlayouts]
  refine ⟨Or.inl ⟨?_, ?_⟩, ?_⟩
  · simp [hcast]
  · rw [hcast]
    exact_mod_cast Nat.zero_le n
  · intro w hw
    simp at hw

/-- C1 (amended with `n < 2 ^ 63`, the range on which the source's
`n as isize` cast preserves the value): `playout_n_parallel(n, W)` with
`0 < n < 2 ^ 63` and `W > 0` initializes the one shared atomic counter to
`n`; each worker fetch-and-decrements it before starting a playout and stops
when the pre-decrement value is `≤ 0` (this is the step relation `ParStep`);
and in every terminal state — all workers stopped, which is when the
`crossbeam::scope` join lets the call return — reachable under any
interleaving, exactly `n` playouts were started and completed across the
workers. -/
theorem playout_n_parallel_exact (n W : Nat) (hn : 0 < n) (hbound : n < 2 ^ 63)
    (hW : 0 < W) (t : ParState W)
    (hreach : Relation.ReflTransGen (ParStep W) (parInit n W) t)
    (hterm : ∀ w, t.stopped w = true) :
    (parInit n W).counter = (n : Int) ∧ totalPlayouts t = n := by
  have hinv := parReach_inv hreach (parInit_inv n W hbound)
  have h64 : n < 2 ^ 64 := by
    have h : (2 : Nat) ^ 63 < 2 ^ 64 := by norm_num
    omega
  constructor
  · simp only [parInit, i64ofU64, Nat.mod_eq_of_lt h64]
    rw [if_pos hbound]
  · obtain ⟨hacc, hstop⟩ := hinv
    have hneg : t.counter < 0 := hstop ⟨0, hW⟩ (hterm ⟨0, hW⟩)
    rcases hacc with ⟨_, hge⟩ | ⟨he, _⟩
    · exact absurd hneg (not_lt.mpr hge)
    · exact_mod_cast he

/-- Witness for the amended C1: `playout_n_parallel(1, 1)` — the single
worker does one playout, then stops; the terminal state records exactly one
playout. -/
theorem playout_n_parallel_exact_witness :
    0 < 1 ∧ 1 < 2 ^ 63 ∧ 0 < 1 ∧ (∀ w : Fin 1, cSt2.stopped w = true) ∧
      (parInit 1 1).counter = (1 : Int) ∧ totalPlayouts cSt2 = 1 := by
  have step1 : ParStep 1 (parInit 1 1) cSt1 :=
    ParStep.work (parInit 1 1) cw0 rfl (by decide)
  have step2 : ParStep 1 cSt1 cSt2 :=
    ParStep.halt cSt1 cw0 rfl (by decide)
  have hreach : Relation.ReflTransGen (ParStep 1) (parInit 1 1) cSt2 :=
    Relation.ReflTransGen.head step1
      (Relation.ReflTransGen.head step2 Relation.ReflTransGen.refl)
  have H := playout_n_parallel_exact 1 1 (by decide) (by decide) (by decide)
    cSt2 hreach (by decide)
  exact ⟨by decide, by decide, by decide, by decide, H.1, H.2⟩

/-- C1 is false as stated for every `n > 0`: at `n = 2 ^ 63` (a legal `u64`
argument) the counter is initialized by `n as isize` to `-2 ^ 63`, not to
`n`, so with one worker the run reaches a terminal state after a single
`fetch_sub` having started zero playouts instead of `n`. -/
theorem playout_n_parallel_wrap_cex :
    0 < 2 ^ 63 ∧ (parInit (2 ^ 63) 1).counter = -(2 ^ 63) ∧
      Relation.ReflTransGen (ParStep 1) (parInit (2 ^ 63) 1) cexSt ∧
      (∀ w : Fin 1, cexSt.stopped w = true) ∧
      totalPlayouts cexSt = 0 ∧ totalPlayouts cexSt ≠ 2 ^ 63 := by
  refine ⟨by decide, by decide, ?_, by decide, by decide, by decide⟩
  exact Relation.ReflTransGen.head
    (ParStep.halt (parInit (2 ^ 63) 1) cw0 rfl (by decide))
    Relation.ReflTransGen.refl
